import Mathlib

/-!
Verification of the chunking-and-assembly pipeline of the OpenAI_TTS_GUI
repository, shallowly embedded in Lean 4.

Strings are modelled as `List Char`; file systems as association lists from
paths to opaque contents; time and delays as rationals.  Each definition in
this file is a direct translation of the source function it names.
-/

namespace TTSGui

/-! ## Text segmenter (`split_text` in `src/openai_tts_gui/utils.py`) -/

/-- The sentence-terminal punctuation class `[.?!;:]` of `_BOUNDARY_RE`. -/
def isBoundaryPunct (c : Char) : Bool :=
  c = '.' || c = '?' || c = '!' || c = ';' || c = ':'

/-- Model of the regex class `\s` on the characters the app handles
(space, tab, newline, carriage return, vertical tab, form feed).  None of
the theorems below depend on the exact membership of this set. -/
def isPySpace (c : Char) : Bool :=
  c = ' ' || c = '\t' || c = '\n' || c = '\r' ||
    c = Char.ofNat 11 || c = Char.ofNat 12

/-- Position `p` of `chunk` starts a match of `[.?!;:](?=\s|$)`:
a boundary punctuation character that is the last character of the chunk
or is immediately followed by whitespace. -/
def boundaryAt (chunk : List Char) (p : Nat) : Bool :=
  match chunk.drop p with
  | [] => false
  | c :: rest =>
    isBoundaryPunct c &&
      (match rest with
       | [] => true
       | d :: _ => isPySpace d)

/-- Test that `' '` occurs at position `p` of `chunk` (for `chunk.rfind(" ")`). -/
def spaceAt (chunk : List Char) (p : Nat) : Bool :=
  match chunk.drop p with
  | ' ' :: _ => true
  | _ => false

/-- Largest `p < n` satisfying `pred`, if any.  This models both the last
match of `re.finditer` over single-character matches and `str.rfind`. -/
def lastIdxSuchThat (pred : Nat → Bool) : Nat → Option Nat
  | 0 => none
  | m + 1 => if pred m then some m else lastIdxSuchThat pred m

/-- Index of the last `_BOUNDARY_RE` match inside the window. -/
def lastBoundary (chunk : List Char) : Option Nat :=
  lastIdxSuchThat (boundaryAt chunk) chunk.length

/-- Model of `chunk.rfind(" ")` as an `Option`. -/
def lastSpaceIdx (chunk : List Char) : Option Nat :=
  lastIdxSuchThat (spaceAt chunk) chunk.length

/-- The split index chosen for one window, exactly as in `split_text`:
one past the last qualifying punctuation, else one past the last space,
else a forced split at `chunk_size`. -/
def split_index (chunk : List Char) (chunk_size : Nat) : Nat :=
  match lastBoundary chunk with
  | some p => p + 1
  | none =>
    match lastSpaceIdx chunk with
    | some p => p + 1
    | none => chunk_size

/-- The `while current_pos < text_len` loop of `split_text`, phrased on the
remaining suffix of the text.  The `0 < si` guard mirrors the fact that the
Python loop advances the cursor by the chosen split index; the guard fails
only when `chunk_size = 0`, where the Python loop does not terminate. -/
def splitLoop (chunk_size : Nat) (rest : List Char) : List (List Char) :=
  if rest.isEmpty then []
  else if rest.length ≤ chunk_size then [rest]
  else
    let si := split_index (rest.take chunk_size) chunk_size
    if _h : 0 < si then
      rest.take si :: splitLoop chunk_size (rest.drop si)
    else []
termination_by rest.length
decreasing_by
  simp only [List.length_drop]
  omega

/-- Model of `split_text(text, chunk_size)` from `src/openai_tts_gui/utils.py`. -/
def split_text (text : List Char) (chunk_size : Nat) : List (List Char) :=
  if text.isEmpty then []
  else if text.length ≤ chunk_size then [text]
  else splitLoop chunk_size text

/-! ### Basic lemmas about the split index -/

theorem lastIdxSuchThat_spec {pred : Nat → Bool} {n p : Nat}
    (h : lastIdxSuchThat pred n = some p) : p < n ∧ pred p = true := by
  induction n with
  | zero => simp [lastIdxSuchThat] at h
  | succ m ih =>
    rw [lastIdxSuchThat] at h
    by_cases hp : pred m
    · simp [hp] at h
      subst h
      exact ⟨Nat.lt_succ_self m, hp⟩
    · simp [hp] at h
      have := ih h
      exact ⟨Nat.lt_succ_of_lt this.1, this.2⟩

theorem split_index_pos (chunk : List Char) (chunk_size : Nat)
    (h : 1 ≤ chunk_size) : 0 < split_index chunk chunk_size := by
  rw [split_index]
  cases hb : lastBoundary chunk with
  | some p => exact Nat.succ_pos p
  | none =>
    cases hs : lastSpaceIdx chunk with
    | some p => exact Nat.succ_pos p
    | none => exact h

theorem split_index_le (chunk : List Char) (chunk_size : Nat)
    (h : chunk.length ≤ chunk_size) :
    split_index chunk chunk_size ≤ chunk_size := by
  rw [split_index]
  cases hb : lastBoundary chunk with
  | some p =>
    have hp := lastIdxSuchThat_spec hb
    show p + 1 ≤ chunk_size
    omega
  | none =>
    cases hs : lastSpaceIdx chunk with
    | some p =>
      have hp := lastIdxSuchThat_spec hs
      show p + 1 ≤ chunk_size
      omega
    | none => exact Nat.le_refl _

/-! ### Unfolding equations for the extraction loop -/

theorem splitLoop_nil (chunk_size : Nat) : splitLoop chunk_size [] = [] := by
  rw [splitLoop]
  simp

theorem splitLoop_small (chunk_size : Nat) (rest : List Char)
    (hne : rest ≠ []) (hle : rest.length ≤ chunk_size) :
    splitLoop chunk_size rest = [rest] := by
  rw [splitLoop]
  rw [if_neg (by simp [List.isEmpty_iff, hne]), if_pos hle]

theorem splitLoop_step (chunk_size : Nat) (rest : List Char)
    (hgt : chunk_size < rest.length)
    (hsi : 0 < split_index (rest.take chunk_size) chunk_size) :
    splitLoop chunk_size rest =
      rest.take (split_index (rest.take chunk_size) chunk_size)
        :: splitLoop chunk_size
            (rest.drop (split_index (rest.take chunk_size) chunk_size)) := by
  have hne : rest ≠ [] := by
    intro h
    subst h
    simp at hgt
  rw [splitLoop]
  rw [if_neg (by simp [List.isEmpty_iff, hne]), if_neg (by omega)]
  exact dif_pos hsi

/-! ### Round-trip reconstruction (claim C1) -/

theorem splitLoop_flatten (chunk_size : Nat) (hcs : 1 ≤ chunk_size) :
    ∀ fuel rest, rest.length ≤ fuel →
      (splitLoop chunk_size rest).flatten = rest := by
  intro fuel
  induction fuel with
  | zero =>
    intro rest hr
    have h0 : rest = [] := by
      cases rest with
      | nil => rfl
      | cons a l => simp at hr
    subst h0
    rw [splitLoop_nil]
    rfl
  | succ n ih =>
    intro rest hr
    by_cases hne : rest = []
    · subst hne
      rw [splitLoop_nil]
      rfl
    · by_cases hle : rest.length ≤ chunk_size
      · rw [splitLoop_small chunk_size rest hne hle]
        simp
      · have hgt : chunk_size < rest.length := by omega
        have hsi := split_index_pos (rest.take chunk_size) chunk_size hcs
        rw [splitLoop_step chunk_size rest hgt hsi]
        rw [List.flatten_cons]
        have hlen :
            (rest.drop (split_index (rest.take chunk_size) chunk_size)).length
              ≤ n := by
          rw [List.length_drop]
          omega
        rw [ih _ hlen]
        exact List.take_append_drop _ _

/-- Claim C1: for every input string `T` and every positive bound `L`,
concatenating in order the segments returned by `split_text T L`
reproduces `T` exactly, with no character lost or duplicated. -/
theorem split_text_roundtrip (text : List Char) (L : Nat) (hL : 1 ≤ L) :
    (split_text text L).flatten = text := by
  rw [split_text]
  by_cases hne : text = []
  · subst hne
    simp
  · by_cases hle : text.length ≤ L
    · rw [if_neg (by simp [List.isEmpty_iff, hne]), if_pos hle]
      simp
    · rw [if_neg (by simp [List.isEmpty_iff, hne]), if_neg hle]
      exact splitLoop_flatten L hL text.length text (le_refl _)

/-- Witness for C1: the round trip holds at a concrete input. -/
theorem split_text_roundtrip_witness :
    1 ≤ 2 ∧
      (split_text ['a', 'b', ' ', 'c', 'd'] 2).flatten
        = ['a', 'b', ' ', 'c', 'd'] :=
  ⟨by decide, split_text_roundtrip ['a', 'b', ' ', 'c', 'd'] 2 (by decide)⟩

/-! ### Segment length bound (claim C2) -/

theorem splitLoop_length_le (chunk_size : Nat) (hcs : 1 ≤ chunk_size) :
    ∀ fuel rest, rest.length ≤ fuel →
      ∀ seg ∈ splitLoop chunk_size rest, seg.length ≤ chunk_size := by
  intro fuel
  induction fuel with
  | zero =>
    intro rest hr seg hseg
    have h0 : rest = [] := by
      cases rest with
      | nil => rfl
      | cons a l => simp at hr
    subst h0
    rw [splitLoop_nil] at hseg
    simp at hseg
  | succ n ih =>
    intro rest hr seg hseg
    by_cases hne : rest = []
    · subst hne
      rw [splitLoop_nil] at hseg
      simp at hseg
    · by_cases hle : rest.length ≤ chunk_size
      · rw [splitLoop_small chunk_size rest hne hle] at hseg
        simp at hseg
        subst hseg
        exact hle
      · have hgt : chunk_size < rest.length := by omega
        have hsi := split_index_pos (rest.take chunk_size) chunk_size hcs
        rw [splitLoop_step chunk_size rest hgt hsi] at hseg
        rcases List.mem_cons.mp hseg with h1 | h2
        · subst h1
          rw [List.length_take]
          have hsile :
              split_index (rest.take chunk_size) chunk_size ≤ chunk_size := by
            apply split_index_le
            rw [List.length_take]
            omega
          omega
        · exact ih _ (by rw [List.length_drop]; omega) seg h2

/-- Claim C2: every segment of `split_text text L` has length at most `L`
(so in particular every segment other than the one holding the final
character does), and the segment emitted for a window containing neither a
qualifying punctuation boundary nor a space (a forced split) is the full
window, of length exactly `L`. -/
theorem split_text_segment_bound (text : List Char) (L : Nat) (hL : 1 ≤ L) :
    (∀ seg ∈ split_text text L, seg.length ≤ L) ∧
    (∀ rest : List Char, L < rest.length →
      lastBoundary (rest.take L) = none →
      lastSpaceIdx (rest.take L) = none →
      (splitLoop L rest).head? = some (rest.take L) ∧
        (rest.take L).length = L) := by
  constructor
  · intro seg hseg
    rw [split_text] at hseg
    by_cases hne : text = []
    · subst hne
      simp at hseg
    · by_cases hle : text.length ≤ L
      · rw [if_neg (by simp [List.isEmpty_iff, hne]), if_pos hle] at hseg
        simp at hseg
        subst hseg
        exact hle
      · rw [if_neg (by simp [List.isEmpty_iff, hne]), if_neg hle] at hseg
        exact splitLoop_length_le L hL text.length text (le_refl _) seg hseg
  · intro rest hgt hb hs
    have hforced : split_index (rest.take L) L = L := by
      simp only [split_index, hb, hs]
    have hsi : 0 < split_index (rest.take L) L := by omega
    rw [splitLoop_step L rest hgt hsi, hforced]
    refine ⟨rfl, ?_⟩
    rw [List.length_take]
    omega

/-- Witness for C2: at a concrete input every segment is within the bound,
and a window with no boundary and no space forces a full-length segment. -/
theorem split_text_segment_bound_witness :
    1 ≤ 2 ∧
      (∀ seg ∈ split_text ['a', 'a', 'a', 'a'] 2, seg.length ≤ 2) ∧
      (splitLoop 2 ['a', 'a', 'a', 'a']).head? = some ['a', 'a'] := by
  refine ⟨by decide, (split_text_segment_bound ['a', 'a', 'a', 'a'] 2
    (by decide)).1, ?_⟩
  have h := (split_text_segment_bound ['a', 'a', 'a', 'a'] 2 (by decide)).2
    ['a', 'a', 'a', 'a'] (by decide) (by decide) (by decide)
  exact h.1.trans (by decide)

/-! ### Loop progress and segment non-emptiness (claim C10) -/

theorem splitLoop_ne_nil (chunk_size : Nat) (hcs : 1 ≤ chunk_size) :
    ∀ fuel rest, rest.length ≤ fuel →
      ∀ seg ∈ splitLoop chunk_size rest, seg ≠ [] := by
  intro fuel
  induction fuel with
  | zero =>
    intro rest hr seg hseg
    have h0 : rest = [] := by
      cases rest with
      | nil => rfl
      | cons a l => simp at hr
    subst h0
    rw [splitLoop_nil] at hseg
    simp at hseg
  | succ n ih =>
    intro rest hr seg hseg
    by_cases hne : rest = []
    · subst hne
      rw [splitLoop_nil] at hseg
      simp at hseg
    · by_cases hle : rest.length ≤ chunk_size
      · rw [splitLoop_small chunk_size rest hne hle] at hseg
        simp at hseg
        subst hseg
        exact hne
      · have hgt : chunk_size < rest.length := by omega
        have hsi := split_index_pos (rest.take chunk_size) chunk_size hcs
        rw [splitLoop_step chunk_size rest hgt hsi] at hseg
        rcases List.mem_cons.mp hseg with h1 | h2
        · subst h1
          rw [Ne, List.take_eq_nil_iff]
          push_neg
          exact ⟨by omega, hne⟩
        · exact ih _ (by rw [List.length_drop]; omega) seg h2

/-- Claim C10: for every chunk size of at least 1 the cursor strictly
advances at every iteration (the chosen split index is always at least 1,
which is the termination measure of `splitLoop`), and every segment
returned by `split_text` is non-empty. -/
theorem split_text_advances_and_nonempty (text : List Char) (L : Nat)
    (hL : 1 ≤ L) :
    (∀ window : List Char, 0 < split_index window L) ∧
    (∀ seg ∈ split_text text L, seg ≠ []) := by
  constructor
  · intro window
    exact split_index_pos window L hL
  · intro seg hseg
    rw [split_text] at hseg
    by_cases hne : text = []
    · subst hne
      simp at hseg
    · by_cases hle : text.length ≤ L
      · rw [if_neg (by simp [List.isEmpty_iff, hne]), if_pos hle] at hseg
        simp at hseg
        subst hseg
        exact hne
      · rw [if_neg (by simp [List.isEmpty_iff, hne]), if_neg hle] at hseg
        exact splitLoop_ne_nil L hL text.length text (le_refl _) seg hseg

/-- Witness for C10 at a concrete input. -/
theorem split_text_advances_and_nonempty_witness :
    1 ≤ 3 ∧ (∀ seg ∈ split_text ['x', '.', ' ', 'y'] 3, seg ≠ []) :=
  ⟨by decide,
    (split_text_advances_and_nonempty ['x', '.', ' ', 'y'] 3 (by decide)).2⟩

/-! ## Backoff computation (`_compute_backoff` in `src/openai_tts_gui/tts.py`)

Delays are modelled as rationals.  The parsed `retry-after` header, when the
error carries one, is the `Option ℚ` argument; the draw of
`random.uniform(0, 0.2 * delay)` is modelled as `u * (0.2 * delay)` for a
sample `u ∈ [0, 1]`. -/

/-- The configured base delay `config.RETRY_DELAY` (seconds). -/
def RETRY_DELAY : ℚ := 5

/-- Model of `_compute_backoff(e, attempt)`: honor a parsed `retry-after` exactly;
otherwise exponential backoff `max(1, cfg) * 2^attempt` plus up to
20 percent jitter. -/
def compute_backoff (retryAfter : Option ℚ) (attempt : Nat)
    (retryDelayCfg : ℚ) (u : ℚ) : ℚ :=
  match retryAfter with
  | some ra => ra
  | none =>
    let base := max 1 retryDelayCfg
    let delay := base * 2 ^ attempt
    delay + u * (1 / 5 * delay)

/-- Claim C4: the computed backoff equals the server-suggested
`retry-after` exactly when present (for example `2.5` yields exactly
`2.5`); otherwise it is `base * 2^attempt` plus a jitter in
`[0, 0.2 * base * 2^attempt]`, where the base is the configured delay
floored at 1 and defaulting to 5, so zero jitter yields 5 at attempt 0
and 20 at attempt 2. -/
theorem compute_backoff_spec (attempt : Nat) (u : ℚ)
    (hu0 : 0 ≤ u) (hu1 : u ≤ 1) :
    (∀ ra : ℚ, compute_backoff (some ra) attempt RETRY_DELAY u = ra) ∧
    compute_backoff (some (5 / 2)) attempt RETRY_DELAY u = 5 / 2 ∧
    compute_backoff none attempt RETRY_DELAY u
      = 5 * 2 ^ attempt + u * (1 / 5 * (5 * 2 ^ attempt)) ∧
    (5 * 2 ^ attempt ≤ compute_backoff none attempt RETRY_DELAY u ∧
      compute_backoff none attempt RETRY_DELAY u
        ≤ 5 * 2 ^ attempt + 1 / 5 * (5 * 2 ^ attempt)) ∧
    compute_backoff none 0 RETRY_DELAY 0 = 5 ∧
    compute_backoff none 2 RETRY_DELAY 0 = 20 ∧
    (∀ cfg : ℚ, (1 : ℚ) ≤ max 1 cfg) ∧
    max (1 : ℚ) RETRY_DELAY = 5 := by
  have hbase : max (1 : ℚ) RETRY_DELAY = 5 := by
    rw [RETRY_DELAY]
    norm_num
  have hpow : (0 : ℚ) < 2 ^ attempt := pow_pos (by norm_num) attempt
  refine ⟨fun ra => rfl, rfl, ?_, ⟨?_, ?_⟩, ?_, ?_, fun cfg => le_max_left 1 cfg,
    hbase⟩
  · rw [compute_backoff]
    rw [hbase]
  · rw [compute_backoff, hbase]
    have : 0 ≤ u * (1 / 5 * (5 * 2 ^ attempt)) := by positivity
    linarith
  · rw [compute_backoff, hbase]
    have h1 : u * (1 / 5 * (5 * 2 ^ attempt)) ≤ 1 / 5 * (5 * 2 ^ attempt) := by
      have h2 : (0 : ℚ) ≤ 1 / 5 * (5 * 2 ^ attempt) := by positivity
      nlinarith
    linarith
  · rw [compute_backoff, hbase]
    norm_num
  · rw [compute_backoff, hbase]
    norm_num

/-- Witness for C4 at a concrete sample: `u = 1/2` and attempt 1 give
delay `10 + 1 = 11`, and a `retry-after` of `2.5` is honored exactly. -/
theorem compute_backoff_spec_witness :
    (0 : ℚ) ≤ 1 / 2 ∧ (1 : ℚ) / 2 ≤ 1 ∧
      compute_backoff none 1 RETRY_DELAY (1 / 2) = 11 ∧
      compute_backoff (some (5 / 2)) 1 RETRY_DELAY (1 / 2) = 5 / 2 := by
  have h := compute_backoff_spec 1 (1 / 2) (by norm_num) (by norm_num)
  refine ⟨by norm_num, by norm_num, ?_, h.2.1⟩
  rw [h.2.2.1]
  norm_num

/-! ## Retry orchestration (`TTSProcessor._save_chunk_with_retries`)

The network is modelled as an oracle `outcomes : Nat → AttemptOutcome`
giving, for each attempt index, which handler branch of the
`for attempt in range(config.MAX_RETRIES)` loop fires. -/

/-- The configured attempt budget `config.MAX_RETRIES`. -/
def MAX_RETRIES : Nat := 3

/-- One constructor per handler branch of the retry loop. -/
inductive AttemptOutcome where
  | success
  | rateLimit
  | timeoutConn
  | statusErr (status : Option Nat)
  | apiErr
  | openAIErr
  | osErr
  | unexpected
deriving DecidableEq

/-- The distinct terminal reports of the retry loop. -/
inductive FailKind where
  | status
  | api
  | openai
  | fileErr
  | unexpected
  | exhausted
deriving DecidableEq

/-- Result of `_save_chunk_with_retries` together with the number of
attempts actually made. -/
inductive ChunkResult where
  | ok (attempts : Nat)
  | fail (kind : FailKind) (attempts : Nat)
deriving DecidableEq

def ChunkResult.attempts : ChunkResult → Nat
  | .ok n => n
  | .fail _ n => n

/-- Python `status and status >= 500` on the optional status code. -/
def retryableStatus : Option Nat → Bool
  | some v => (v != 0) && decide (500 ≤ v)
  | none => false

/-- The retry loop itself: each arm mirrors one `except` handler of
`_save_chunk_with_retries`. -/
def retryLoop (outcomes : Nat → AttemptOutcome) (maxRetries : Nat)
    (attempt : Nat) : ChunkResult :=
  if _h : attempt < maxRetries then
    match outcomes attempt with
    | .success => .ok (attempt + 1)
    | .rateLimit => retryLoop outcomes maxRetries (attempt + 1)
    | .timeoutConn => retryLoop outcomes maxRetries (attempt + 1)
    | .statusErr s =>
      if retryableStatus s && decide (attempt < maxRetries - 1) then
        retryLoop outcomes maxRetries (attempt + 1)
      else .fail .status (attempt + 1)
    | .apiErr => .fail .api (attempt + 1)
    | .openAIErr => .fail .openai (attempt + 1)
    | .osErr => .fail .fileErr (attempt + 1)
    | .unexpected => .fail .unexpected (attempt + 1)
  else .fail .exhausted maxRetries
termination_by maxRetries - attempt
decreasing_by all_goals omega

/-- Model of `_save_chunk_with_retries`: start the loop at attempt 0 with the
configured budget. -/
def save_chunk_with_retries (outcomes : Nat → AttemptOutcome) : ChunkResult :=
  retryLoop outcomes MAX_RETRIES 0

/-- An outcome on which the loop moves on to the next attempt. -/
def continues (maxRetries attempt : Nat) : AttemptOutcome → Bool
  | .rateLimit => true
  | .timeoutConn => true
  | .statusErr s => retryableStatus s && decide (attempt < maxRetries - 1)
  | _ => false

/-- An outcome the loop never retries, at any attempt index: client /
API errors, local write failures, unexpected errors, and status errors
whose code is not a 5xx. -/
def nonRetryable : AttemptOutcome → Bool
  | .apiErr => true
  | .openAIErr => true
  | .osErr => true
  | .unexpected => true
  | .statusErr s => !(retryableStatus s)
  | _ => false

/-- The failure kind the loop reports for a terminal outcome. -/
def failKindOf : AttemptOutcome → FailKind
  | .apiErr => .api
  | .openAIErr => .openai
  | .osErr => .fileErr
  | .unexpected => .unexpected
  | _ => .status

theorem retryLoop_attempts_le (outcomes : Nat → AttemptOutcome)
    (maxRetries : Nat) :
    ∀ fuel attempt, maxRetries - attempt ≤ fuel → attempt ≤ maxRetries →
      (retryLoop outcomes maxRetries attempt).attempts ≤ maxRetries := by
  intro fuel
  induction fuel with
  | zero =>
    intro attempt h1 h2
    rw [retryLoop, dif_neg (by omega)]
    simp [ChunkResult.attempts]
  | succ n ih =>
    intro attempt h1 h2
    rw [retryLoop]
    by_cases h : attempt < maxRetries
    · rw [dif_pos h]
      split
      · simp [ChunkResult.attempts]; omega
      · exact ih (attempt + 1) (by omega) (by omega)
      · exact ih (attempt + 1) (by omega) (by omega)
      · split
        · exact ih (attempt + 1) (by omega) (by omega)
        · simp [ChunkResult.attempts]; omega
      · simp [ChunkResult.attempts]; omega
      · simp [ChunkResult.attempts]; omega
      · simp [ChunkResult.attempts]; omega
      · simp [ChunkResult.attempts]; omega
    · rw [dif_neg h]
      simp [ChunkResult.attempts]

theorem retryLoop_exhausted (outcomes : Nat → AttemptOutcome)
    (maxRetries : Nat) :
    ∀ fuel attempt, maxRetries - attempt ≤ fuel →
      (∀ i, attempt ≤ i → i < maxRetries →
        continues maxRetries i (outcomes i) = true) →
      retryLoop outcomes maxRetries attempt = .fail .exhausted maxRetries := by
  intro fuel
  induction fuel with
  | zero =>
    intro attempt h1 _hcont
    rw [retryLoop, dif_neg (by omega)]
  | succ n ih =>
    intro attempt h1 hcont
    have hrec : ∀ i, attempt + 1 ≤ i → i < maxRetries →
        continues maxRetries i (outcomes i) = true :=
      fun i hi1 hi2 => hcont i (by omega) hi2
    rw [retryLoop]
    by_cases h : attempt < maxRetries
    · have hc := hcont attempt (le_refl _) h
      rw [dif_pos h]
      split
      next ho => rw [ho] at hc; simp [continues] at hc
      next ho => exact ih (attempt + 1) (by omega) hrec
      next ho => exact ih (attempt + 1) (by omega) hrec
      next s ho =>
        rw [ho] at hc
        have hc2 : (retryableStatus s && decide (attempt < maxRetries - 1))
            = true := by
          simpa [continues] using hc
        rw [if_pos hc2]
        exact ih (attempt + 1) (by omega) hrec
      next ho => rw [ho] at hc; simp [continues] at hc
      next ho => rw [ho] at hc; simp [continues] at hc
      next ho => rw [ho] at hc; simp [continues] at hc
      next ho => rw [ho] at hc; simp [continues] at hc
    · rw [dif_neg h]

theorem retryLoop_stops_nonretryable (outcomes : Nat → AttemptOutcome)
    (maxRetries : Nat) :
    ∀ fuel attempt i, maxRetries - attempt ≤ fuel →
      attempt ≤ i → i < maxRetries →
      (∀ j, attempt ≤ j → j < i → continues maxRetries j (outcomes j) = true) →
      nonRetryable (outcomes i) = true →
      retryLoop outcomes maxRetries attempt
        = .fail (failKindOf (outcomes i)) (i + 1) := by
  intro fuel
  induction fuel with
  | zero =>
    intro attempt i h1 h2 h3 _hcont _hnr
    omega
  | succ n ih =>
    intro attempt i h1 h2 h3 hcont hnr
    have h : attempt < maxRetries := by omega
    rw [retryLoop, dif_pos h]
    by_cases heq : attempt = i
    · subst heq
      split
      next ho => rw [ho] at hnr; simp [nonRetryable] at hnr
      next ho => rw [ho] at hnr; simp [nonRetryable] at hnr
      next ho => rw [ho] at hnr; simp [nonRetryable] at hnr
      next s ho =>
        rw [ho] at hnr
        have hrs : retryableStatus s = false := by
          simpa [nonRetryable] using hnr
        rw [if_neg (by simp [hrs])]
        rw [ho]
        rfl
      next ho => rw [ho]; rfl
      next ho => rw [ho]; rfl
      next ho => rw [ho]; rfl
      next ho => rw [ho]; rfl
    · have hlt : attempt < i := by omega
      have hc := hcont attempt (le_refl _) hlt
      have hrec : ∀ j, attempt + 1 ≤ j → j < i →
          continues maxRetries j (outcomes j) = true :=
        fun j hj1 hj2 => hcont j (by omega) hj2
      split
      next ho => rw [ho] at hc; simp [continues] at hc
      next ho => exact ih (attempt + 1) i (by omega) (by omega) h3 hrec hnr
      next ho => exact ih (attempt + 1) i (by omega) (by omega) h3 hrec hnr
      next s ho =>
        rw [ho] at hc
        have hc2 : (retryableStatus s && decide (attempt < maxRetries - 1))
            = true := by
          simpa [continues] using hc
        rw [if_pos hc2]
        exact ih (attempt + 1) i (by omega) (by omega) h3 hrec hnr
      next ho => rw [ho] at hc; simp [continues] at hc
      next ho => rw [ho] at hc; simp [continues] at hc
      next ho => rw [ho] at hc; simp [continues] at hc
      next ho => rw [ho] at hc; simp [continues] at hc

theorem retryLoop_ok_success (outcomes : Nat → AttemptOutcome)
    (maxRetries : Nat) :
    ∀ fuel attempt n, maxRetries - attempt ≤ fuel →
      retryLoop outcomes maxRetries attempt = .ok n →
      outcomes (n - 1) = .success := by
  intro fuel
  induction fuel with
  | zero =>
    intro attempt n h1 hok
    rw [retryLoop, dif_neg (by omega)] at hok
    exact absurd hok (by simp)
  | succ m ih =>
    intro attempt n h1 hok
    rw [retryLoop] at hok
    by_cases h : attempt < maxRetries
    · rw [dif_pos h] at hok
      split at hok
      next ho =>
        have hn : attempt + 1 = n := by
          simpa using hok
        rw [show n - 1 = attempt by omega]
        exact ho
      next ho => exact ih (attempt + 1) n (by omega) hok
      next ho => exact ih (attempt + 1) n (by omega) hok
      next s ho =>
        split at hok
        · exact ih (attempt + 1) n (by omega) hok
        · cases hok
      next ho => cases hok
      next ho => cases hok
      next ho => cases hok
      next ho => cases hok
    · rw [dif_neg h] at hok
      cases hok

/-- Claim C5: the retry orchestrator makes at most `MAX_RETRIES = 3`
attempts; if the whole budget is spent on retryable failures it reports
the exhausted-budget terminal failure after exactly 3 attempts; a
non-retryable error (client or API error, non-5xx status, local write
failure, unexpected error) terminates the loop at that very attempt with
the corresponding failure; and whenever no attempt succeeds the result is
a terminal failure. -/
theorem save_chunk_retry_spec (outcomes : Nat → AttemptOutcome) :
    (save_chunk_with_retries outcomes).attempts ≤ MAX_RETRIES ∧
    ((∀ i, i < MAX_RETRIES → continues MAX_RETRIES i (outcomes i) = true) →
      save_chunk_with_retries outcomes = .fail .exhausted MAX_RETRIES) ∧
    (∀ i, i < MAX_RETRIES →
      (∀ j, j < i → continues MAX_RETRIES j (outcomes j) = true) →
      nonRetryable (outcomes i) = true →
      save_chunk_with_retries outcomes
        = .fail (failKindOf (outcomes i)) (i + 1)) ∧
    ((∀ i, outcomes i ≠ .success) →
      ∃ k n, save_chunk_with_retries outcomes = .fail k n) := by
  refine ⟨?_, ?_, ?_, ?_⟩
  · exact retryLoop_attempts_le outcomes MAX_RETRIES MAX_RETRIES 0
      (by omega) (by omega)
  · intro hcont
    exact retryLoop_exhausted outcomes MAX_RETRIES MAX_RETRIES 0 (by omega)
      (fun i _ hi2 => hcont i hi2)
  · intro i hi hcont hnr
    exact retryLoop_stops_nonretryable outcomes MAX_RETRIES MAX_RETRIES 0 i
      (by omega) (by omega) hi (fun j _ hj2 => hcont j hj2) hnr
  · intro hns
    cases hres : save_chunk_with_retries outcomes with
    | ok n =>
      have := retryLoop_ok_success outcomes MAX_RETRIES MAX_RETRIES 0 n
        (by omega) hres
      exact absurd this (hns (n - 1))
    | fail k n => exact ⟨k, n, rfl⟩

/-- Witness for C5: three straight rate limits exhaust the budget with
exactly three attempts; an OS write error on the first attempt stops the
loop at one attempt. -/
theorem save_chunk_retry_spec_witness :
    save_chunk_with_retries (fun _ => .rateLimit) = .fail .exhausted 3 ∧
      save_chunk_with_retries (fun _ => .osErr) = .fail .fileErr 1 := by
  constructor
  · exact (save_chunk_retry_spec (fun _ => .rateLimit)).2.1
      (fun i _ => rfl)
  · exact (save_chunk_retry_spec (fun _ => .osErr)).2.2.1 0 (by decide)
      (fun j hj => absurd hj (by omega)) rfl

/-! ## Legacy audio client (`save_chunk` and `rate_limited_request` in
`OpenAI_TTS.py`)

`save_chunk` loops `while attempt < MAX_RETRIES`, performing one HTTP call
per iteration.  Each call either raises (modelled `exc`) or returns a
status code and a payload length. -/

/-- One HTTP attempt as seen by `save_chunk`. -/
inductive HttpAttempt where
  | resp (status : Nat) (contentLen : Nat)
  | exc
deriving DecidableEq

/-- Success test `response.status_code == 200 and len(response.content) > 0`. -/
def isSuccessResp : HttpAttempt → Bool
  | .resp s len => (s == 200) && decide (0 < len)
  | .exc => false

/-- Retriable test `response.status_code in [429, 500, 502, 503, 504]`. -/
def isRetriableResp : HttpAttempt → Bool
  | .resp s _ => s == 429 || s == 500 || s == 502 || s == 503 || s == 504
  | .exc => false

/-- The `while attempt < MAX_RETRIES` loop of `save_chunk`; `attempt`
counts the attempts already made.  Returns the success flag together with
the number of attempts made when the function returned. -/
def saveChunkLoop (resps : Nat → HttpAttempt) (maxRetries : Nat)
    (attempt : Nat) : Bool × Nat :=
  if _h : attempt < maxRetries then
    let a := attempt + 1
    match resps attempt with
    | .resp s len =>
      if (s == 200) && decide (0 < len) then (true, a)
      else if s == 429 || s == 500 || s == 502 || s == 503 || s == 504 then
        saveChunkLoop resps maxRetries a
      else (false, a)
    | .exc => saveChunkLoop resps maxRetries a
  else (false, attempt)
termination_by maxRetries - attempt
decreasing_by all_goals omega

/-- Model of `save_chunk` with `MAX_RETRIES = 3` (constants at the top of
`OpenAI_TTS.py`). -/
def save_chunk (resps : Nat → HttpAttempt) : Bool × Nat :=
  saveChunkLoop resps MAX_RETRIES 0

/-- An attempt after which the legacy loop retries: a retriable status
that is not a success, or an exception. -/
def legacyContinues : HttpAttempt → Bool
  | .resp s len =>
    !((s == 200) && decide (0 < len)) &&
      (s == 429 || s == 500 || s == 502 || s == 503 || s == 504)
  | .exc => true

theorem saveChunkLoop_stops (resps : Nat → HttpAttempt) (maxRetries : Nat) :
    ∀ fuel attempt i, maxRetries - attempt ≤ fuel →
      attempt ≤ i → i < maxRetries →
      (∀ j, attempt ≤ j → j < i → legacyContinues (resps j) = true) →
      isSuccessResp (resps i) = false → isRetriableResp (resps i) = false →
      (∃ s len, resps i = .resp s len) →
      saveChunkLoop resps maxRetries attempt = (false, i + 1) := by
  intro fuel
  induction fuel with
  | zero =>
    intro attempt i h1 h2 h3 _hcont _hs _hr _hresp
    omega
  | succ n ih =>
    intro attempt i h1 h2 h3 hcont hs hr hresp
    have h : attempt < maxRetries := by omega
    rw [saveChunkLoop, dif_pos h]
    by_cases heq : attempt = i
    · subst heq
      obtain ⟨s, len, ho⟩ := hresp
      rw [ho] at hs hr
      split
      next s2 len2 ho2 =>
        rw [ho] at ho2
        cases ho2
        rw [if_neg (by simp_all [isSuccessResp]),
          if_neg (by simp_all [isRetriableResp])]
      next ho2 =>
        rw [ho] at ho2
        cases ho2
    · have hlt : attempt < i := by omega
      have hc := hcont attempt (le_refl _) hlt
      have hrec : ∀ j, attempt + 1 ≤ j → j < i →
          legacyContinues (resps j) = true :=
        fun j hj1 hj2 => hcont j (by omega) hj2
      split
      next s2 len2 ho2 =>
        rw [ho2] at hc
        simp only [legacyContinues] at hc
        rw [Bool.and_eq_true] at hc
        obtain ⟨hc1, hc2⟩ := hc
        rw [Bool.not_eq_true'] at hc1
        rw [if_neg (by simp [hc1]), if_pos hc2]
        exact ih (attempt + 1) i (by omega) (by omega) h3 hrec hs hr hresp
      next ho2 =>
        exact ih (attempt + 1) i (by omega) (by omega) h3 hrec hs hr hresp

/-- Claim C6: a provider answer with success status but a zero-byte payload
is classified as neither a success nor a retriable response; the legacy
client makes no further attempt after it and reports the segment failed. -/
theorem empty_payload_is_terminal (resps : Nat → HttpAttempt) (i : Nat)
    (hi : i < MAX_RETRIES)
    (hprev : ∀ j, j < i → legacyContinues (resps j) = true)
    (hempty : resps i = .resp 200 0) :
    isSuccessResp (.resp 200 0) = false ∧
    isRetriableResp (.resp 200 0) = false ∧
    save_chunk resps = (false, i + 1) := by
  refine ⟨rfl, rfl, ?_⟩
  exact saveChunkLoop_stops resps MAX_RETRIES MAX_RETRIES 0 i (by omega)
    (by omega) hi (fun j _ hj => hprev j hj)
    (by rw [hempty]; rfl) (by rw [hempty]; rfl) ⟨200, 0, hempty⟩

/-- Witness for C6: a first-attempt empty 200 answer fails immediately
with exactly one attempt made. -/
theorem empty_payload_is_terminal_witness :
    save_chunk (fun _ => .resp 200 0) = (false, 1) :=
  (empty_payload_is_terminal (fun _ => .resp 200 0) 0 (by decide)
    (fun j hj => absurd hj (by omega)) rfl).2.2

/-! ### Rate limiting (`rate_limited_request` in `OpenAI_TTS.py`)

Wall-clock instants are rationals.  `last` is the module-global
`last_request_time`, `now` the value of `time.time()` at entry, and
`callDur ≥ 0` the duration of the HTTP round trip.  The model returns the
sleep performed, the instant the request is issued, and the new value of
`last_request_time` (written after the call returns). -/

/-- Substring test used by `'hd' in model`. -/
def containsHd : List Char → Bool
  | [] => false
  | c :: rest => List.isPrefixOf ['h', 'd'] (c :: rest) || containsHd rest

/-- Interval of `60 / 50` seconds for `tts-1`, `60 / 3` for models
whose name contains `hd`. -/
def min_interval (model : List Char) : ℚ :=
  if containsHd model then 60 / 3 else 60 / 50

/-- Observable effects of one `rate_limited_request` call. -/
structure RateCall where
  sleepTime : ℚ
  issueTime : ℚ
  newLast : ℚ
deriving DecidableEq

/-- Model of `rate_limited_request`: sleep for the missing part of the interval,
issue the request, update the global timestamp after the call returns. -/
def rate_limited_request (model : List Char) (last now callDur : ℚ) :
    RateCall :=
  let mi := min_interval model
  let elapsed := now - last
  let sleepT := if elapsed < mi then mi - elapsed else 0
  { sleepTime := sleepT
    issueTime := now + sleepT
    newLast := now + sleepT + callDur }

/-- Claim C8: consecutive requests are separated by at least `60/50`
seconds for the standard tier and `60/3` seconds for the hd tier: when the
elapsed time since the previous request is below the tier interval the
call sleeps for exactly the remainder (otherwise it does not sleep), the
issue instant is at least the interval after the previous timestamp, and
the shared timestamp is updated to the completion instant of the call. -/
theorem rate_limited_request_spec (model : List Char) (last now callDur : ℚ)
    (_hdur : 0 ≤ callDur) :
    (now - last < min_interval model →
      (rate_limited_request model last now callDur).sleepTime
        = min_interval model - (now - last)) ∧
    (min_interval model ≤ now - last →
      (rate_limited_request model last now callDur).sleepTime = 0) ∧
    min_interval model
      ≤ (rate_limited_request model last now callDur).issueTime - last ∧
    (rate_limited_request model last now callDur).newLast
      = (rate_limited_request model last now callDur).issueTime + callDur ∧
    min_interval ['t', 't', 's', '-', '1'] = 60 / 50 ∧
    min_interval ['t', 't', 's', '-', '1', '-', 'h', 'd'] = 60 / 3 := by
  refine ⟨?_, ?_, ?_, rfl, ?_, ?_⟩
  · intro hlt
    simp only [rate_limited_request]
    rw [if_pos hlt]
  · intro hge
    simp only [rate_limited_request]
    rw [if_neg (by linarith)]
  · simp only [rate_limited_request]
    by_cases hlt : now - last < min_interval model
    · rw [if_pos hlt]
      linarith
    · rw [if_neg hlt]
      push_neg at hlt
      linarith
  · simp only [min_interval]
    rw [(by decide : containsHd ['t', 't', 's', '-', '1'] = false)]
    simp
  · simp only [min_interval]
    rw [(by decide :
      containsHd ['t', 't', 's', '-', '1', '-', 'h', 'd'] = true)]
    simp

/-- Witness for C8: with the previous request 1 second ago on the hd tier
the call sleeps 19 seconds and issues exactly 20 seconds after the
previous timestamp. -/
theorem rate_limited_request_spec_witness :
    (0 : ℚ) ≤ 1 / 2 ∧
      (rate_limited_request ['t', 't', 's', '-', '1', '-', 'h', 'd']
        100 101 (1 / 2)).sleepTime = 19 := by
  have h := rate_limited_request_spec ['t', 't', 's', '-', '1', '-', 'h', 'd']
    100 101 (1 / 2) (by norm_num)
  refine ⟨by norm_num, ?_⟩
  rw [h.1 (by rw [h.2.2.2.2.2]; norm_num), h.2.2.2.2.2]
  norm_num

/-! ## File-system model

Paths and file contents are both `Nat`; a file system is an association
list.  `fsWrite` overwrites, mirroring `open(.., "wb")` semantics. -/

def fsLookup : List (Nat × Nat) → Nat → Option Nat
  | [], _ => none
  | (q, c) :: rest, p => if q = p then some c else fsLookup rest p

/-- Model of `os.path.exists`. -/
def fsExists (fs : List (Nat × Nat)) (p : Nat) : Bool :=
  (fsLookup fs p).isSome

/-- Model of `os.remove`. -/
def fsRemove : List (Nat × Nat) → Nat → List (Nat × Nat)
  | [], _ => []
  | (q, c) :: rest, p =>
    if q = p then fsRemove rest p else (q, c) :: fsRemove rest p

/-- Create or overwrite a file. -/
def fsWrite (fs : List (Nat × Nat)) (p c : Nat) : List (Nat × Nat) :=
  (p, c) :: fsRemove fs p

/-- Model of `os.rename` (source assumed present; no-op otherwise). -/
def os_rename (fs : List (Nat × Nat)) (src dst : Nat) : List (Nat × Nat) :=
  match fsLookup fs src with
  | some c => fsWrite (fsRemove fs src) dst c
  | none => fs

theorem fsLookup_remove_self (fs : List (Nat × Nat)) (p : Nat) :
    fsLookup (fsRemove fs p) p = none := by
  induction fs with
  | nil => rfl
  | cons e rest ih =>
    obtain ⟨q, c⟩ := e
    rw [fsRemove]
    by_cases hq : q = p
    · rw [if_pos hq]
      exact ih
    · rw [if_neg hq, fsLookup, if_neg hq]
      exact ih

theorem fsLookup_remove_other (fs : List (Nat × Nat)) (p q : Nat)
    (h : p ≠ q) : fsLookup (fsRemove fs q) p = fsLookup fs p := by
  induction fs with
  | nil => rfl
  | cons e rest ih =>
    obtain ⟨r, c⟩ := e
    rw [fsRemove]
    by_cases hr : r = q
    · rw [if_pos hr, fsLookup, if_neg (by omega)]
      exact ih
    · rw [if_neg hr, fsLookup, fsLookup]
      by_cases hp : r = p
      · rw [if_pos hp, if_pos hp]
      · rw [if_neg hp, if_neg hp]
        exact ih

/-! ## Cleanup (`cleanup_files` in `src/openai_tts_gui/utils.py`) -/

/-- Model of `cleanup_files(file_list)`: remove each listed file that exists
(missing entries are only logged). -/
def cleanup_files (file_list : List Nat) (fs : List (Nat × Nat)) :
    List (Nat × Nat) :=
  match file_list with
  | [] => fs
  | p :: rest =>
    cleanup_files rest (if fsExists fs p then fsRemove fs p else fs)

theorem cleanup_files_preserves_absent (file_list : List Nat)
    (fs : List (Nat × Nat)) (p : Nat) (h : fsExists fs p = false) :
    fsExists (cleanup_files file_list fs) p = false := by
  induction file_list generalizing fs with
  | nil => exact h
  | cons q rest ih =>
    rw [cleanup_files]
    apply ih
    by_cases hq : fsExists fs q
    · rw [if_pos hq]
      by_cases hpq : p = q
      · rw [fsExists, hpq, fsLookup_remove_self]
        rfl
      · rw [fsExists, fsLookup_remove_other fs p q hpq]
        exact h
    · rw [if_neg hq]
      exact h

theorem cleanup_files_removes (file_list : List Nat)
    (fs : List (Nat × Nat)) :
    ∀ p ∈ file_list, fsExists (cleanup_files file_list fs) p = false := by
  induction file_list generalizing fs with
  | nil =>
    intro p hp
    simp at hp
  | cons q rest ih =>
    intro p hp
    rw [cleanup_files]
    rcases List.mem_cons.mp hp with h1 | h2
    · subst h1
      apply cleanup_files_preserves_absent
      by_cases hq : fsExists fs p
      · rw [if_pos hq, fsExists, fsLookup_remove_self]
        rfl
      · rw [if_neg hq]
        simpa using hq
    · exact ih _ p h2

/-! ## Assembler (`concatenate_audio_files` in
`src/openai_tts_gui/utils.py`)

For more than one artifact the function writes a manifest listing only the
input paths that exist on disk (missing ones are logged and skipped — the
`raise` is commented out in the source) and then invokes ffmpeg on that
manifest.  The external tool's own output writes are outside this model;
the outcome records the manifest it was invoked with. -/

inductive ConcatOutcome where
  | noop (fs : List (Nat × Nat))
  | renamed (fs : List (Nat × Nat))
  | invokedTool (manifest : List Nat) (fs : List (Nat × Nat))
  | errMissingInput (path : Nat) (fs : List (Nat × Nat))
deriving DecidableEq

/-- Model of `concatenate_audio_files(file_list, output_file)`. -/
def concatenate_audio_files (fs : List (Nat × Nat)) (file_list : List Nat)
    (output_file : Nat) : ConcatOutcome :=
  match file_list with
  | [] => .noop fs
  | [single] =>
    if fsExists fs single then
      .renamed (os_rename
        (if fsExists fs output_file then fsRemove fs output_file else fs)
        single output_file)
    else .errMissingInput single fs
  | _ => .invokedTool (file_list.filter (fun p => fsExists fs p)) fs

/-- Counterexample to claim C7 as stated: with artifact `1` present and
artifact `2` missing from disk, assembling `[1, 2]` does not fail before
invoking the external tool; the tool is invoked with the missing artifact
silently dropped from the manifest. -/
theorem concat_missing_input_counterexample :
    concatenate_audio_files [(1, 10)] [1, 2] 5
      = .invokedTool [1] [(1, 10)] := by
  rfl

/-- Claim C7 amended: with more than one listed artifact the assembler
never reports a missing input; it writes exactly the listed artifacts
that exist on disk, in order, to the manifest and invokes the external
concatenation tool on it, silently skipping the missing ones. -/
theorem concat_skips_missing_inputs (fs : List (Nat × Nat))
    (file_list : List Nat) (output_file : Nat)
    (h2 : 2 ≤ file_list.length) :
    concatenate_audio_files fs file_list output_file
      = .invokedTool (file_list.filter (fun p => fsExists fs p)) fs := by
  match file_list with
  | [] => simp at h2
  | [a] => simp at h2
  | a :: b :: rest => rfl

/-- Witness for the amended C7 at a concrete input. -/
theorem concat_skips_missing_inputs_witness :
    concatenate_audio_files [(1, 10)] [1, 2] 8
      = .invokedTool [1] [(1, 10)] :=
  (concat_skips_missing_inputs [(1, 10)] [1, 2] 8 (by decide)).trans
    (by decide)

/-- Claim C9: with exactly one listed artifact the assembler performs a
rename onto the output path (no tool invocation): afterwards the source
path no longer exists, the output path holds the original bytes, and any
pre-existing file at the output path has been overwritten. -/
theorem concat_single_renames (fs : List (Nat × Nat))
    (src output_file c : Nat) (hsrc : fsLookup fs src = some c)
    (hne : src ≠ output_file) :
    ∃ fs2, concatenate_audio_files fs [src] output_file = .renamed fs2 ∧
      fsLookup fs2 src = none ∧ fsLookup fs2 output_file = some c := by
  have hex : fsExists fs src = true := by
    rw [fsExists, hsrc]
    rfl
  have hl1 : fsLookup
      (if fsExists fs output_file then fsRemove fs output_file else fs)
      src = some c := by
    by_cases ho : fsExists fs output_file
    · rw [if_pos ho, fsLookup_remove_other fs src output_file hne]
      exact hsrc
    · rw [if_neg ho]
      exact hsrc
  refine ⟨os_rename
      (if fsExists fs output_file then fsRemove fs output_file else fs)
      src output_file, ?_, ?_, ?_⟩
  · show (if fsExists fs src then
        ConcatOutcome.renamed (os_rename
          (if fsExists fs output_file then fsRemove fs output_file else fs)
          src output_file)
      else .errMissingInput src fs) = _
    rw [if_pos hex]
  · simp only [os_rename, hl1]
    rw [fsWrite, fsLookup, if_neg (by omega),
      fsLookup_remove_other _ src output_file hne, fsLookup_remove_self]
  · simp only [os_rename, hl1]
    rw [fsWrite, fsLookup, if_pos rfl]

/-- Witness for C9: renaming artifact `1` onto the occupied output path
`5` leaves `1` absent and `5` holding the original content `42`. -/
theorem concat_single_renames_witness :
    ∃ fs2, concatenate_audio_files [(1, 42), (5, 7)] [1] 5 = .renamed fs2 ∧
      fsLookup fs2 1 = none ∧ fsLookup fs2 5 = some 42 :=
  concat_single_renames [(1, 42), (5, 7)] 1 5 42 (by decide) (by decide)

/-! ## Segment processor (`TTSProcessor.run`, sequential mode)

The job is driven by an oracle `segOk i` telling whether chunk `i`'s
orchestrated synthesis (`_save_chunk_with_retries`) returns `True`; a
successful chunk streams its audio to the artifact path `chunkFile i`
with content `content i`.  The loop mirrors the
`for i, chunk in enumerate(chunks, start=1)` branch of `run`: the
artifact name is appended to `temp_files` before the attempt, the method
returns early on the first failed chunk (before any concatenation), and
the `finally` block runs `cleanup_files(temp_files)` unless
`retain_files` was requested.  (The bounded-concurrency branch registers
all artifact names in `temp_files` up front, so the same cleanup
argument applies there.) -/

structure LoopState where
  temp : List Nat
  fs : List (Nat × Nat)
  ok : Bool
deriving DecidableEq

/-- The chunk loop of `TTSProcessor.run` over chunks `i, i+1, ..., n`. -/
def runChunks (segOk : Nat → Bool) (chunkFile : Nat → Nat)
    (content : Nat → Nat) (n i : Nat) (temp : List Nat)
    (fs : List (Nat × Nat)) : LoopState :=
  if _h : i ≤ n then
    if segOk i then
      runChunks segOk chunkFile content n (i + 1) (temp ++ [chunkFile i])
        (fsWrite fs (chunkFile i) (content i))
    else { temp := temp ++ [chunkFile i], fs := fs, ok := false }
  else { temp := temp, fs := fs, ok := true }
termination_by n + 1 - i
decreasing_by all_goals omega

structure JobOutcome where
  failed : Bool
  assembled : Bool
  temp : List Nat
  fs : List (Nat × Nat)
deriving DecidableEq

/-- Model of `TTSProcessor.run` restricted to the observables of claim C3:
`failed` holds when a chunk failed (an error signal was emitted and the
method returned early), `assembled` holds when the loop completed and the
concatenation call was reached, and `fs` is the disk state after the
`finally` cleanup.  The assembler's own file-system effects are modelled
separately by `concatenate_audio_files`. -/
def tts_run (segOk : Nat → Bool) (chunkFile : Nat → Nat)
    (content : Nat → Nat) (n : Nat) (retain : Bool)
    (fs : List (Nat × Nat)) : JobOutcome :=
  { failed := !(runChunks segOk chunkFile content n 1 [] fs).ok
    assembled := (runChunks segOk chunkFile content n 1 [] fs).ok
    temp := (runChunks segOk chunkFile content n 1 [] fs).temp
    fs :=
      if retain then (runChunks segOk chunkFile content n 1 [] fs).fs
      else cleanup_files (runChunks segOk chunkFile content n 1 [] fs).temp
        (runChunks segOk chunkFile content n 1 [] fs).fs }

theorem runChunks_fails (segOk : Nat → Bool) (chunkFile : Nat → Nat)
    (content : Nat → Nat) (n : Nat) :
    ∀ fuel i temp fs, n + 1 - i ≤ fuel →
      (∃ j, i ≤ j ∧ j ≤ n ∧ segOk j = false) →
      (runChunks segOk chunkFile content n i temp fs).ok = false := by
  intro fuel
  induction fuel with
  | zero =>
    intro i temp fs h1 hex
    obtain ⟨j, hj1, hj2, hj3⟩ := hex
    omega
  | succ m ih =>
    intro i temp fs h1 hex
    obtain ⟨j, hj1, hj2, hj3⟩ := hex
    have hi : i ≤ n := by omega
    rw [runChunks, dif_pos hi]
    by_cases hs : segOk i
    · rw [if_pos hs]
      apply ih _ _ _ (by omega)
      refine ⟨j, ?_, hj2, hj3⟩
      by_cases hji : j = i
      · subst hji
        simp [hj3] at hs
      · omega
    · rw [if_neg hs]

/-- Claim C3: whenever some segment of the job terminally fails, the job
reports failure, the assembler is never invoked, and — when retention was
not requested — none of the per-segment artifact paths registered by the
job remains on disk after the `finally` cleanup. -/
theorem job_abort_on_segment_failure (segOk : Nat → Bool)
    (chunkFile : Nat → Nat) (content : Nat → Nat) (n : Nat) (retain : Bool)
    (fs : List (Nat × Nat))
    (hfail : ∃ i, 1 ≤ i ∧ i ≤ n ∧ segOk i = false) :
    (tts_run segOk chunkFile content n retain fs).failed = true ∧
    (tts_run segOk chunkFile content n retain fs).assembled = false ∧
    (retain = false →
      ∀ p ∈ (tts_run segOk chunkFile content n retain fs).temp,
        fsExists (tts_run segOk chunkFile content n retain fs).fs p
          = false) := by
  have hok : (runChunks segOk chunkFile content n 1 [] fs).ok = false :=
    runChunks_fails segOk chunkFile content n (n + 1) 1 [] fs (by omega)
      hfail
  refine ⟨?_, ?_, ?_⟩
  · simp only [tts_run]
    rw [hok]
    rfl
  · simp only [tts_run]
    exact hok
  · intro hr p hp
    simp only [tts_run] at hp ⊢
    rw [hr, if_neg (by simp)]
    exact cleanup_files_removes _ _ p hp

/-- Witness for C3: a three-segment job whose second segment fails ends
failed, unassembled, and with all three artifact paths absent. -/
theorem job_abort_on_segment_failure_witness :
    (tts_run (fun i => decide (i ≠ 2)) (fun i => i + 100) (fun _ => 0)
        3 false []).failed = true ∧
    (tts_run (fun i => decide (i ≠ 2)) (fun i => i + 100) (fun _ => 0)
        3 false []).assembled = false :=
  ⟨(job_abort_on_segment_failure (fun i => decide (i ≠ 2))
      (fun i => i + 100) (fun _ => 0) 3 false []
      ⟨2, by decide, by decide, by decide⟩).1,
    (job_abort_on_segment_failure (fun i => decide (i ≠ 2))
      (fun i => i + 100) (fun _ => 0) 3 false []
      ⟨2, by decide, by decide, by decide⟩).2.1⟩

end TTSGui
